import Mathlib

/-!
Shallow embedding of the `enumset` bit-set library (`src/enumset/src/lib.rs`).

A domain descriptor (the data the `EnumSetType` derive supplies) is a storage
width together with the `ALL_BITS` mask.  An enum member is identified with its
bit position (the value of `enum_into_u32`).  A set value is its underlying
storage integer, modelled as a `Nat` together with explicit `% 2 ^ width`
wrapping wherever the machine semantics matter.
-/

namespace EnumSetSpec

/-- Domain descriptor: the storage width of `T::Repr` (8, 16, 32, 64 or 128)
and the `ALL_BITS` mask of valid variant positions. -/
structure Domain where
  width : Nat
  allBits : Nat

/-- Well-formedness of a descriptor: `ALL_BITS` fits the storage width. -/
def Domain.WF (d : Domain) : Prop := d.allBits < 2 ^ d.width

/-- A valid member of the domain, identified with its bit position
(`enum_into_u32`): its bit is set in `ALL_BITS`. -/
def Member (d : Domain) (v : Nat) : Prop := d.allBits.testBit v = true

instance (d : Domain) : Decidable d.WF := by unfold Domain.WF; infer_instance
instance (d : Domain) (v : Nat) : Decidable (Member d v) := by unfold Member; infer_instance

/-- Fuel-driven population count; exact once `n ≤ fuel`.  Embeds the
`count_ones` primitive of the storage types. -/
def count_ones_fuel : Nat → Nat → Nat
  | 0, _ => 0
  | fuel+1, n => if n = 0 then 0 else n % 2 + count_ones_fuel fuel (n / 2)

/-- `count_ones` of a storage integer. -/
def count_ones (n : Nat) : Nat := count_ones_fuel n n

theorem count_ones_fuel_congr :
    ∀ f g n, n ≤ f → n ≤ g → count_ones_fuel f n = count_ones_fuel g n := by
  intro f
  induction f with
  | zero =>
    intro g n hf _
    have hn : n = 0 := Nat.le_zero.mp hf
    subst hn
    cases g <;> simp [count_ones_fuel]
  | succ f ih =>
    intro g n hf hg
    cases g with
    | zero =>
      have hn : n = 0 := Nat.le_zero.mp hg
      subst hn
      simp [count_ones_fuel]
    | succ g =>
      simp only [count_ones_fuel]
      by_cases hn : n = 0
      · simp [hn]
      · simp only [hn, if_false]
        have h1 : n / 2 ≤ f := by omega
        have h2 : n / 2 ≤ g := by omega
        rw [ih g (n / 2) h1 h2]

/-- Recurrence for `count_ones`. -/
theorem count_ones_step (n : Nat) : count_ones n = n % 2 + count_ones (n / 2) := by
  cases n with
  | zero => simp [count_ones, count_ones_fuel]
  | succ m =>
    show count_ones_fuel (m + 1) (m + 1) = _
    simp only [count_ones_fuel]
    rw [if_neg (Nat.succ_ne_zero m)]
    have h := count_ones_fuel_congr m ((m + 1) / 2) ((m + 1) / 2) (by omega) (Nat.le_refl _)
    rw [h]
    rfl

theorem count_ones_zero : count_ones 0 = 0 := rfl

theorem count_ones_double (n : Nat) : count_ones (2 * n) = count_ones n := by
  rw [count_ones_step]
  simp [Nat.mul_div_cancel_left n (by omega : 0 < 2)]

theorem count_ones_shiftLeft (k n : Nat) : count_ones (n <<< k) = count_ones n := by
  induction k with
  | zero => simp
  | succ k ih => rw [Nat.shiftLeft_succ, count_ones_double, ih]

/-- Fuel-driven bit length; exact once `n ≤ fuel`.  `width - nat_size n` embeds
the `leading_zeros` primitive of the storage types. -/
def size_fuel : Nat → Nat → Nat
  | 0, _ => 0
  | fuel+1, n => if n = 0 then 0 else size_fuel fuel (n / 2) + 1

/-- Bit length of a storage integer (position of the highest set bit, plus 1). -/
def nat_size (n : Nat) : Nat := size_fuel n n

theorem size_fuel_congr :
    ∀ f g n, n ≤ f → n ≤ g → size_fuel f n = size_fuel g n := by
  intro f
  induction f with
  | zero =>
    intro g n hf _
    have hn : n = 0 := Nat.le_zero.mp hf
    subst hn
    cases g <;> simp [size_fuel]
  | succ f ih =>
    intro g n hf hg
    cases g with
    | zero =>
      have hn : n = 0 := Nat.le_zero.mp hg
      subst hn
      simp [size_fuel]
    | succ g =>
      simp only [size_fuel]
      by_cases hn : n = 0
      · simp [hn]
      · simp only [hn, if_false]
        have h1 : n / 2 ≤ f := by omega
        have h2 : n / 2 ≤ g := by omega
        rw [ih g (n / 2) h1 h2]

theorem nat_size_step (n : Nat) (h : n ≠ 0) : nat_size n = nat_size (n / 2) + 1 := by
  cases n with
  | zero => exact absurd rfl h
  | succ m =>
    show size_fuel (m + 1) (m + 1) = _
    simp only [size_fuel]
    rw [if_neg (Nat.succ_ne_zero m)]
    have hc := size_fuel_congr m ((m + 1) / 2) ((m + 1) / 2) (by omega) (Nat.le_refl _)
    rw [hc]
    rfl

theorem nat_size_zero : nat_size 0 = 0 := rfl

/-- Characterisation of `nat_size` as a bit length. -/
theorem nat_size_le (n : Nat) : ∀ k, (nat_size n ≤ k ↔ n < 2 ^ k) := by
  induction n using Nat.strong_induction_on with
  | _ n ih =>
    intro k
    by_cases hn : n = 0
    · subst hn
      simp [nat_size_zero, Nat.two_pow_pos k]
    · rw [nat_size_step n hn]
      cases k with
      | zero =>
        simp only [Nat.pow_zero]
        omega
      | succ k =>
        have hdiv : n / 2 < n := Nat.div_lt_self (by omega) (by omega)
        have h2 := ih (n / 2) hdiv k
        constructor
        · intro h
          have : n / 2 < 2 ^ k := h2.mp (by omega)
          have : n < 2 ^ k * 2 := (Nat.div_lt_iff_lt_mul (by omega : 0 < 2)).mp this
          calc n < 2 ^ k * 2 := this
            _ = 2 ^ (k + 1) := by rw [Nat.pow_succ]
        · intro h
          have : n < 2 ^ k * 2 := by rw [← Nat.pow_succ]; exact h
          have : n / 2 < 2 ^ k := (Nat.div_lt_iff_lt_mul (by omega : 0 < 2)).mpr this
          have := h2.mpr this
          omega

theorem lt_two_pow_nat_size (n : Nat) : n < 2 ^ nat_size n :=
  (nat_size_le n (nat_size n)).mp (Nat.le_refl _)

theorem testBit_lt_nat_size {n i : Nat} (h : n.testBit i = true) : i < nat_size n := by
  by_contra hle
  have hi : nat_size n ≤ i := by omega
  have h1 : n < 2 ^ i :=
    Nat.lt_of_lt_of_le (lt_two_pow_nat_size n) (Nat.pow_le_pow_right (by omega) hi)
  rw [Nat.testBit_lt_two_pow h1] at h
  exact Bool.noConfusion h

/-! Bit-set core, translated from `impl EnumSet<T>` in `src/enumset/src/lib.rs`. -/

/-- `EnumSet::mask`: `T::Repr::one() << bit`. -/
def mask (bit : Nat) : Nat := 1 <<< bit

/-- `EnumSet::has_bit`: `underlying & mask == mask`. -/
def has_bit (u bit : Nat) : Bool := (u &&& mask bit) == mask bit

/-- `EnumSet::partial_bits`:
`one().checked_shl(bits).unwrap_or(zero()).wrapping_sub(one())`.
`checked_shl` yields the sentinel when `bits ≥ width`; the wrapping subtraction
of one is modelled as adding `2 ^ width - 1` modulo `2 ^ width`. -/
def partial_bits (d : Domain) (bits : Nat) : Nat :=
  ((if bits < d.width then 1 <<< bits else 0) + (2 ^ d.width - 1)) % 2 ^ d.width

/-- `EnumSet::all_bits`: the `ALL_BITS` constant of the descriptor. -/
def all_bits (d : Domain) : Nat := d.allBits

/-- Machine-width bitwise NOT of a storage integer (Rust `!x` on `T::Repr`). -/
def not_w (d : Domain) (x : Nat) : Nat := (2 ^ d.width - 1) ^^^ x

/-- `EnumSet::new`: the empty set. -/
def new : Nat := 0

/-- `EnumSet::only`: singleton set of a member (identified with its bit position). -/
def only (v : Nat) : Nat := mask v

/-- `EnumSet::empty`: alias for `new`. -/
def empty : Nat := new

/-- `EnumSet::all`: the set of all valid variants. -/
def all (d : Domain) : Nat := all_bits d

/-- `leading_zeros` of a storage integer at the descriptor width. -/
def leading_zeros (d : Domain) (n : Nat) : Nat := d.width - nat_size n

/-- `EnumSet::bit_width`: `Repr::WIDTH - ALL_BITS.leading_zeros()`. -/
def bit_width (d : Domain) : Nat := d.width - leading_zeros d d.allBits

/-- `EnumSet::variant_count`: `ALL_BITS.count_ones()`. -/
def variant_count (d : Domain) : Nat := count_ones d.allBits

/-- `EnumSet::len`: `underlying.count_ones()`. -/
def len (u : Nat) : Nat := count_ones u

/-- `EnumSet::is_empty`. -/
def is_empty (u : Nat) : Bool := u == 0

/-- `EnumSet::clear`: the new underlying value after clearing. -/
def clear : Nat := 0

/-- `EnumSet::contains`. -/
def contains (u v : Nat) : Bool := has_bit u v

/-- `EnumSet::insert`: returns the reported flag and the new underlying value. -/
def insert (u v : Nat) : Bool × Nat := (!(contains u v), u ||| mask v)

/-- `EnumSet::remove`: returns the reported flag and the new underlying value. -/
def remove (d : Domain) (u v : Nat) : Bool × Nat := (contains u v, u &&& not_w d (mask v))

/-- `EnumSet::insert_all`. -/
def insert_all (u o : Nat) : Nat := u ||| o

/-- `EnumSet::remove_all`. -/
def remove_all (d : Domain) (u o : Nat) : Nat := u &&& not_w d o

/-- `EnumSet::union`. -/
def union (u o : Nat) : Nat := u ||| o

/-- `EnumSet::intersection`. -/
def intersection (u o : Nat) : Nat := u &&& o

/-- `EnumSet::difference`. -/
def difference (d : Domain) (u o : Nat) : Nat := u &&& not_w d o

/-- `EnumSet::symmetrical_difference`. -/
def symmetrical_difference (u o : Nat) : Nat := u ^^^ o

/-- `EnumSet::complement`: `!underlying & all_bits()`. -/
def complement (d : Domain) (u : Nat) : Nat := not_w d u &&& all_bits d

/-- `EnumSet::is_disjoint`. -/
def is_disjoint (u o : Nat) : Bool := is_empty (intersection u o)

/-- `EnumSet::is_superset`: `(self & other).underlying == other.underlying`. -/
def is_superset (u o : Nat) : Bool := intersection u o == o

/-- `EnumSet::is_subset`: `other.is_superset(self)`. -/
def is_subset (u o : Nat) : Bool := is_superset o u

/-! Conversion family, translated from the `conversion_impls!` expansion. -/

/-- `ToPrimitive::to_uW` on an unsigned storage integer: `Some` exactly when the
value fits in `W` bits. -/
def try_to (W u : Nat) : Option Nat := if u < 2 ^ W then some u else none

/-- `Option::expect`, with a panic modelled as `Except.error` of the message. -/
def expect (o : Option Nat) (msg : String) : Except String Nat :=
  match o with
  | some v => Except.ok v
  | none => Except.error msg

/-- The panicking export `EnumSet::to_uW`: `self.try_to().expect(..)`. -/
def to_w (W u : Nat) : Except String Nat :=
  expect (try_to W u) "Bitset will not fit into this type."

/-- The truncating export `EnumSet::to_uW_truncated`: `AsPrimitive::as_`,
keeping the low `W` bits. -/
def to_truncated (W u : Nat) : Nat := u % 2 ^ W

/-- `FromPrimitive::from_uW` into the storage type: `Some` exactly when the
value fits in the storage width. -/
def repr_from_w (d : Domain) (bits : Nat) : Option Nat :=
  if bits < 2 ^ d.width then some bits else none

/-- The checked import `EnumSet::try_from_uW`: widen, then reject any bit
outside `ALL_BITS`. -/
def try_from (d : Domain) (bits : Nat) : Option Nat :=
  (repr_from_w d bits).bind
    (fun b => if b &&& not_w d (all d) = 0 then some b else none)

/-- The panicking import `EnumSet::from_uW`: `Self::try_from(bits).expect(..)`. -/
def from_w (d : Domain) (bits : Nat) : Except String Nat :=
  expect (try_from d bits) "Bitset contains invalid variants."

/-- The truncating import `EnumSet::from_uW_truncated`: mask against
`ALL_BITS` truncated to width `W`, then widen truncating to the storage width. -/
def from_truncated (d : Domain) (W bits : Nat) : Nat :=
  (bits &&& to_truncated W (all d)) % 2 ^ d.width

/-! Iterator, translated from `impl Iterator for EnumSetIter`. -/

/-- `EnumSetIter::size_hint`: masked population count of the bits not yet
scanned, `(underlying & !partial_bits(pos)).count_ones()`. -/
def size_hint (d : Domain) (u pos : Nat) : Nat :=
  count_ones (u &&& not_w d (partial_bits d pos))

/-- The full yield sequence of `EnumSetIter::next` from scan position `pos`,
fuel-structured (any `fuel ≥ bit_width - pos` is exact). -/
def iter_fuel (d : Domain) : Nat → Nat → Nat → List Nat
  | 0, _, _ => []
  | fuel+1, u, pos =>
    if pos < bit_width d then
      if has_bit u pos then pos :: iter_fuel d fuel u (pos + 1)
      else iter_fuel d fuel u (pos + 1)
    else []

/-- The sequence yielded by an iterator whose cursor is at `pos`. -/
def iter_from (d : Domain) (u pos : Nat) : List Nat :=
  iter_fuel d (bit_width d - pos) u pos

/-- `EnumSet::iter`: the sequence yielded by a fresh iterator. -/
def iter (d : Domain) (u : Nat) : List Nat := iter_from d u 0

/-! Constant-literal construction and the member comparison. -/

/-- The `enum_set!` macro body: `0 | (1 << v1) | ... | (1 << vn)`. -/
def enum_set (vs : List Nat) : Nat := vs.foldl (fun acc v => acc ||| (1 <<< v)) 0

/-- Modelled from the spec words for C9: the union of the singleton sets of the
listed members. -/
def union_of_onlys (vs : List Nat) : Nat := vs.foldl (fun acc v => union acc (only v)) empty

/-- Modelled from the spec words for C9: inserting the listed members one by
one into the empty set. -/
def insert_each (vs : List Nat) : Nat := vs.foldl (fun acc v => (insert acc v).2) empty

/-- `impl PartialEq<T> for EnumSet<T>`: `underlying == mask(ordinal)`. -/
def eq_enum (u v : Nat) : Bool := u == mask v

/-- The C1 invariant: the underlying value is machine-representable and
`underlying & !ALL_BITS == 0`. -/
def Valid (d : Domain) (u : Nat) : Prop :=
  u < 2 ^ d.width ∧ u &&& not_w d (all_bits d) = 0

instance (d : Domain) (u : Nat) : Decidable (Valid d u) := by unfold Valid; infer_instance

/-! Bridging lemmas between the bit-manipulation primitives and `Nat.testBit`. -/

theorem mask_eq_two_pow (v : Nat) : mask v = 2 ^ v := Nat.one_shiftLeft v

theorem has_bit_eq_testBit (u v : Nat) : has_bit u v = u.testBit v := by
  simp only [has_bit, mask_eq_two_pow, Nat.and_two_pow, beq_iff_eq]
  cases h : u.testBit v <;> simp [h]
  have := Nat.two_pow_pos v
  omega

theorem testBit_not_w (d : Domain) (x : Nat) (hx : x < 2 ^ d.width) (i : Nat) :
    (not_w d x).testBit i = (decide (i < d.width) && !x.testBit i) := by
  simp only [not_w, Nat.testBit_xor, Nat.testBit_two_pow_sub_one]
  by_cases hi : i < d.width
  · simp [hi]
  · have hxi : x.testBit i = false :=
      Nat.testBit_lt_two_pow (Nat.lt_of_lt_of_le hx (Nat.pow_le_pow_right (by omega) (by omega)))
    simp [hi, hxi]

theorem member_lt_width (d : Domain) (hWF : d.WF) {v : Nat} (hv : Member d v) :
    v < d.width := by
  have h1 : v < nat_size d.allBits := testBit_lt_nat_size hv
  have h2 : nat_size d.allBits ≤ d.width := (nat_size_le d.allBits d.width).mpr hWF
  omega

theorem valid_iff (d : Domain) (hWF : d.WF) (u : Nat) :
    Valid d u ↔ ∀ i, u.testBit i = true → d.allBits.testBit i = true := by
  constructor
  · rintro ⟨hu, hz⟩ i hi
    have h := congrArg (Nat.testBit · i) hz
    simp only [Nat.testBit_and, Nat.zero_testBit] at h
    rw [testBit_not_w d (all_bits d) hWF i] at h
    by_cases hw : i < d.width
    · simp [hi, hw, all_bits] at h
      exact h
    · exfalso
      have : u.testBit i = false :=
        Nat.testBit_lt_two_pow
          (Nat.lt_of_lt_of_le hu (Nat.pow_le_pow_right (by omega) (by omega)))
      rw [this] at hi
      exact Bool.noConfusion hi
  · intro hsub
    have hu : u < 2 ^ d.width := by
      apply Nat.lt_pow_two_of_testBit
      intro i hi
      by_contra hne
      have hbit : u.testBit i = true := by
        cases h : u.testBit i
        · exact absurd h hne
        · rfl
      have := member_lt_width d hWF (hsub i hbit)
      omega
    refine ⟨hu, ?_⟩
    apply Nat.eq_of_testBit_eq
    intro i
    simp only [Nat.testBit_and, Nat.zero_testBit]
    rw [testBit_not_w d (all_bits d) hWF i]
    cases h : u.testBit i
    · simp
    · simp [hsub i h, all_bits]

theorem bit_width_eq_size (d : Domain) (hWF : d.WF) :
    bit_width d = nat_size d.allBits := by
  have h : nat_size d.allBits ≤ d.width := (nat_size_le d.allBits d.width).mpr hWF
  simp only [bit_width, leading_zeros]
  omega

theorem valid_lt_two_pow_bit_width (d : Domain) (hWF : d.WF) {u : Nat}
    (hu : Valid d u) : u < 2 ^ bit_width d := by
  rw [bit_width_eq_size d hWF]
  apply Nat.lt_pow_two_of_testBit
  intro i hi
  cases h : u.testBit i
  · rfl
  · have ha := (valid_iff d hWF u).mp hu i h
    have := testBit_lt_nat_size ha
    omega

theorem or_eq_iff_and_eq (a b : Nat) : a ||| b = b ↔ b &&& a = a := by
  constructor
  · intro h
    apply Nat.eq_of_testBit_eq
    intro i
    have hi := congrArg (Nat.testBit · i) h
    simp only [Nat.testBit_or] at hi
    simp only [Nat.testBit_and]
    cases ha : a.testBit i <;> cases hb : b.testBit i <;> simp_all
  · intro h
    apply Nat.eq_of_testBit_eq
    intro i
    have hi := congrArg (Nat.testBit · i) h
    simp only [Nat.testBit_and] at hi
    simp only [Nat.testBit_or]
    cases ha : a.testBit i <;> cases hb : b.testBit i <;> simp_all

/-! Validity-preservation helpers. -/

theorem valid_zero (d : Domain) (hWF : d.WF) : Valid d 0 := by
  rw [valid_iff d hWF]
  intro i hi
  simp [Nat.zero_testBit] at hi

theorem valid_only (d : Domain) (hWF : d.WF) {v : Nat} (hv : Member d v) :
    Valid d (only v) := by
  rw [valid_iff d hWF]
  intro i hi
  simp only [only, mask_eq_two_pow, Nat.testBit_two_pow] at hi
  have hvi : v = i := of_decide_eq_true hi
  subst hvi
  exact hv

theorem valid_land_left (d : Domain) (hWF : d.WF) {u : Nat} (hu : Valid d u)
    (y : Nat) : Valid d (u &&& y) := by
  rw [valid_iff d hWF] at hu ⊢
  intro i hi
  simp only [Nat.testBit_and, Bool.and_eq_true] at hi
  exact hu i hi.1

theorem valid_lor (d : Domain) (hWF : d.WF) {u o : Nat} (hu : Valid d u)
    (ho : Valid d o) : Valid d (u ||| o) := by
  rw [valid_iff d hWF] at hu ho ⊢
  intro i hi
  simp only [Nat.testBit_or, Bool.or_eq_true] at hi
  cases hi with
  | inl h => exact hu i h
  | inr h => exact ho i h

theorem valid_xor (d : Domain) (hWF : d.WF) {u o : Nat} (hu : Valid d u)
    (ho : Valid d o) : Valid d (u ^^^ o) := by
  rw [valid_iff d hWF] at hu ho ⊢
  intro i hi
  simp only [Nat.testBit_xor] at hi
  cases hu2 : u.testBit i
  · cases ho2 : o.testBit i
    · rw [hu2, ho2] at hi
      simp at hi
    · exact ho i ho2
  · exact hu i hu2

theorem valid_and_allBits (d : Domain) (hWF : d.WF) (x : Nat) :
    Valid d (x &&& all_bits d) := by
  rw [valid_iff d hWF]
  intro i hi
  simp only [all_bits, Nat.testBit_and, Bool.and_eq_true] at hi
  exact hi.2

/-- Concrete 7-member domain at ordinals 0..6 over 8-bit storage, used by
the witnesses. -/
def d0 : Domain := ⟨8, 127⟩

/-- C1: for every well-formed descriptor (each member's bit set in `ALL_BITS`,
`ALL_BITS` within the storage width), the invariant `underlying & !ALL_BITS == 0`
is established by `new`/`empty`, `only` and `all`, and preserved by `insert`,
`remove`, `insert_all`, `remove_all`, `union`, `intersection`, `difference`,
`symmetrical_difference`, `complement`, and the checked and truncating import
conversions. -/
theorem C1_invariant (d : Domain) (hWF : d.WF) :
    Valid d new ∧ Valid d empty ∧
    (∀ v, Member d v → Valid d (only v)) ∧
    Valid d (all d) ∧
    (∀ u v, Valid d u → Member d v → Valid d (insert u v).2) ∧
    (∀ u v, Valid d u → Member d v → Valid d (remove d u v).2) ∧
    (∀ u o, Valid d u → Valid d o → Valid d (insert_all u o)) ∧
    (∀ u o, Valid d u → Valid d o → Valid d (remove_all d u o)) ∧
    (∀ u o, Valid d u → Valid d o → Valid d (union u o)) ∧
    (∀ u o, Valid d u → Valid d o → Valid d (intersection u o)) ∧
    (∀ u o, Valid d u → Valid d o → Valid d (difference d u o)) ∧
    (∀ u o, Valid d u → Valid d o → Valid d (symmetrical_difference u o)) ∧
    (∀ u, Valid d (complement d u)) ∧
    (∀ bits u, try_from d bits = some u → Valid d u) ∧
    (∀ W bits, Valid d (from_truncated d W bits)) := by
  refine ⟨valid_zero d hWF, valid_zero d hWF, ?_, ?_, ?_, ?_, ?_, ?_, ?_, ?_, ?_, ?_,
    ?_, ?_, ?_⟩
  · intro v hv
    exact valid_only d hWF hv
  · rw [valid_iff d hWF]
    intro i hi
    simpa [all, all_bits] using hi
  · intro u v hu hv
    exact valid_lor d hWF hu (valid_only d hWF hv)
  · intro u v hu _
    exact valid_land_left d hWF hu _
  · intro u o hu ho
    exact valid_lor d hWF hu ho
  · intro u o hu _
    exact valid_land_left d hWF hu _
  · intro u o hu ho
    exact valid_lor d hWF hu ho
  · intro u o hu _
    exact valid_land_left d hWF hu _
  · intro u o hu _
    exact valid_land_left d hWF hu _
  · intro u o hu ho
    exact valid_xor d hWF hu ho
  · intro u
    exact valid_and_allBits d hWF _
  · intro bits u h
    simp only [try_from, repr_from_w] at h
    by_cases hb : bits < 2 ^ d.width
    · simp only [hb, if_true, Option.some_bind] at h
      by_cases hc : bits &&& not_w d (all d) = 0
      · simp only [hc, if_true, Option.some.injEq] at h
        subst h
        exact ⟨hb, by simpa [all, all_bits] using hc⟩
      · simp [hc] at h
    · simp [hb] at h
  · intro W bits
    rw [valid_iff d hWF]
    intro i hi
    simp only [from_truncated, to_truncated, all, all_bits, Nat.testBit_mod_two_pow,
      Nat.testBit_and, Bool.and_eq_true, decide_eq_true_eq] at hi
    obtain ⟨_, _, _, h4⟩ := hi
    exact h4

/-- Witness for C1 at the concrete domain `d0`. -/
theorem C1_invariant_witness :
    d0.WF ∧ Member d0 3 ∧ Valid d0 5 ∧ Valid d0 (insert 5 3).2 :=
  ⟨by decide, by decide, by decide,
    (C1_invariant d0 (by decide)).2.2.2.2.1 5 3 (by decide) (by decide)⟩

theorem complement_lt (d : Domain) (hWF : d.WF) (a : Nat) :
    complement d a < 2 ^ d.width :=
  Nat.lt_of_le_of_lt Nat.and_le_right hWF

theorem testBit_complement (d : Domain) {a : Nat} (ha : a < 2 ^ d.width)
    (i : Nat) :
    (complement d a).testBit i
      = (decide (i < d.width) && !a.testBit i && (d.allBits.testBit i)) := by
  simp only [complement, all_bits, Nat.testBit_and]
  rw [testBit_not_w d a ha i]

/-- C6: for valid sets of one domain, union and intersection are commutative,
complement is involutive, difference is intersection with the complement, and
De Morgan's law relates complement, union and intersection. -/
theorem C6_algebra (d : Domain) (hWF : d.WF) (a b : Nat)
    (ha : Valid d a) (hb : Valid d b) :
    union a b = union b a ∧
    intersection a b = intersection b a ∧
    complement d (complement d a) = a ∧
    difference d a b = intersection a (complement d b) ∧
    complement d (union a b) = intersection (complement d a) (complement d b) := by
  have hsub := (valid_iff d hWF a).mp ha
  refine ⟨Nat.lor_comm a b, Nat.land_comm a b, ?_, ?_, ?_⟩
  · apply Nat.eq_of_testBit_eq
    intro i
    rw [testBit_complement d (complement_lt d hWF a) i,
      testBit_complement d ha.1 i]
    cases hall : d.allBits.testBit i
    · have hai : a.testBit i = false := by
        cases h2 : a.testBit i
        · rfl
        · rw [hsub i h2] at hall
          exact Bool.noConfusion hall
      simp [hall, hai]
    · have hiw : i < d.width := member_lt_width d hWF hall
      simp [hall, hiw]
  · apply Nat.eq_of_testBit_eq
    intro i
    simp only [difference, intersection, Nat.testBit_and]
    rw [testBit_not_w d b hb.1 i, testBit_complement d hb.1 i]
    cases hai : a.testBit i
    · simp
    · have hall := hsub i hai
      simp [hall]
  · apply Nat.eq_of_testBit_eq
    intro i
    have hor : a ||| b < 2 ^ d.width := Nat.or_lt_two_pow ha.1 hb.1
    show (complement d (a ||| b)).testBit i
      = ((complement d a) &&& (complement d b)).testBit i
    simp only [Nat.testBit_and]
    rw [testBit_complement d hor i, testBit_complement d ha.1 i,
      testBit_complement d hb.1 i]
    simp only [Nat.testBit_or]
    by_cases hiw : i < d.width <;> cases ha2 : a.testBit i <;> cases hb2 : b.testBit i <;>
      simp [hiw, ha2, hb2]

/-- Witness for C6 at the concrete domain `d0` and sets `{0,2}` and `{0,1}`. -/
theorem C6_algebra_witness :
    d0.WF ∧ Valid d0 5 ∧ Valid d0 3 ∧
    (union 5 3 = union 3 5 ∧
     intersection 5 3 = intersection 3 5 ∧
     complement d0 (complement d0 5) = 5 ∧
     difference d0 5 3 = intersection 5 (complement d0 3) ∧
     complement d0 (union 5 3) = intersection (complement d0 5) (complement d0 3)) :=
  ⟨by decide, by decide, by decide,
    C6_algebra d0 (by decide) 5 3 (by decide) (by decide)⟩

/-- C7: subset is equivalent to the union comparison, superset is its mirror,
and disjointness is emptiness of the intersection, even though the
implementation computes superset through the intersection comparison. -/
theorem C7_relations (a b : Nat) :
    (is_subset a b = true ↔ union a b = b) ∧
    (is_superset a b = true ↔ union a b = a) ∧
    (is_disjoint a b = true ↔ is_empty (intersection a b) = true) := by
  refine ⟨?_, ?_, Iff.rfl⟩
  · show (intersection b a == a) = true ↔ union a b = b
    rw [beq_iff_eq]
    exact (or_eq_iff_and_eq a b).symm
  · show (intersection a b == b) = true ↔ union a b = a
    rw [beq_iff_eq]
    have h := or_eq_iff_and_eq b a
    rw [Nat.lor_comm b a] at h
    exact h.symm

theorem testBit_true_lt {n i k : Nat} (h : n.testBit i = true) (hk : n < 2 ^ k) :
    i < k := by
  have h1 : i < nat_size n := testBit_lt_nat_size h
  have h2 : nat_size n ≤ k := (nat_size_le n k).mpr hk
  omega

/-- C2: for a valid set and any width at least `bit_width`, the truncating
export followed by the checked import is the identity, and the checked export
followed by the truncating import is the identity. -/
theorem C2_roundtrip (d : Domain) (hWF : d.WF) (u : Nat) (hu : Valid d u)
    (W : Nat) (hW : bit_width d ≤ W) :
    try_from d (to_truncated W u) = some u ∧
    (∀ x, to_w W u = Except.ok x → from_truncated d W x = u) := by
  have hub : u < 2 ^ bit_width d := valid_lt_two_pow_bit_width d hWF hu
  have huW : u < 2 ^ W := Nat.lt_of_lt_of_le hub (Nat.pow_le_pow_right (by omega) hW)
  constructor
  · have htr : to_truncated W u = u := by
      simp [to_truncated, Nat.mod_eq_of_lt huW]
    rw [htr]
    simp only [try_from, repr_from_w]
    rw [if_pos hu.1]
    simp only [Option.some_bind, all, all_bits]
    have hz : u &&& not_w d d.allBits = 0 := hu.2
    rw [if_pos hz]
  · intro x hx
    have ht : try_to W u = some u := by simp [try_to, huW]
    simp only [to_w, ht, expect, Except.ok.injEq] at hx
    subst hx
    apply Nat.eq_of_testBit_eq
    intro i
    simp only [from_truncated, to_truncated, all, all_bits, Nat.testBit_mod_two_pow,
      Nat.testBit_and]
    cases hui : u.testBit i
    · simp
    · have hiW : i < W := testBit_true_lt hui huW
      have hiw : i < d.width := testBit_true_lt hui hu.1
      have hall : d.allBits.testBit i = true := (valid_iff d hWF u).mp hu i hui
      simp [hiW, hiw, hall]

/-- Witness for C2. -/
theorem C2_roundtrip_witness :
    d0.WF ∧ Valid d0 5 ∧ bit_width d0 ≤ 8 ∧
    try_from d0 (to_truncated 8 5) = some 5 :=
  ⟨by decide, by decide, by decide,
    (C2_roundtrip d0 (by decide) 5 (by decide) 8 (by decide)).1⟩

/-- C3: the checked export succeeds exactly when no bit at position `≥ W` is
set (returning the underlying value), the panicking export fails exactly when
the checked one returns none and otherwise returns the same value, and the
truncating export always returns the low `W` bits. -/
theorem C3_export (W u : Nat) :
    (∀ x, try_to W u = some x ↔ ((∀ i, W ≤ i → u.testBit i = false) ∧ x = u)) ∧
    ((∃ e, to_w W u = Except.error e) ↔ try_to W u = none) ∧
    (∀ x, try_to W u = some x → to_w W u = Except.ok x) ∧
    (∀ i, (to_truncated W u).testBit i = (decide (i < W) && u.testBit i)) := by
  have hlt : u < 2 ^ W ↔ (∀ i, W ≤ i → u.testBit i = false) := by
    constructor
    · intro h i hi
      exact Nat.testBit_lt_two_pow
        (Nat.lt_of_lt_of_le h (Nat.pow_le_pow_right (by omega) hi))
    · intro h
      exact Nat.lt_pow_two_of_testBit u (fun i hi => h i hi)
  refine ⟨?_, ?_, ?_, ?_⟩
  · intro x
    simp only [try_to]
    by_cases h : u < 2 ^ W
    · simp only [h, if_true, Option.some.injEq]
      constructor
      · intro he
        exact ⟨hlt.mp h, he.symm⟩
      · intro he
        exact he.2.symm
    · simp only [h, if_false]
      constructor
      · intro he
        exact Option.noConfusion he
      · intro he
        exact absurd (hlt.mpr he.1) h
  · by_cases h : u < 2 ^ W <;> simp [to_w, try_to, expect, h]
  · intro x hx
    simp only [to_w, hx, expect]
  · intro i
    simp [to_truncated, Nat.testBit_mod_two_pow]

/-- Witness for C3: with `u = 300` and `W = 8` bit 8 is set, so the checked
export returns none and the panicking export fails. -/
theorem C3_export_witness :
    try_to 8 300 = none ∧ (∃ e, to_w 8 300 = Except.error e) :=
  ⟨by decide, (C3_export 8 300).2.1.mpr (by decide)⟩

/-- C4: the checked import returns none exactly when the widened bits contain a
set bit outside `ALL_BITS` (including bits beyond the storage width), and
otherwise returns the widened bits; the panicking import fails exactly when the
checked one returns none and otherwise returns the same set; the truncating
form masks against `ALL_BITS` expressed in width `W` and never fails. -/
theorem C4_import (d : Domain) (hWF : d.WF) (W bits : Nat) (hbits : bits < 2 ^ W) :
    (try_from d bits = none ↔ ∃ i, bits.testBit i = true ∧ d.allBits.testBit i = false) ∧
    (∀ u, try_from d bits = some u → u = bits) ∧
    ((∃ e, from_w d bits = Except.error e) ↔ try_from d bits = none) ∧
    (∀ u, try_from d bits = some u → from_w d bits = Except.ok u) ∧
    (∀ i, (from_truncated d W bits).testBit i
        = (bits.testBit i && d.allBits.testBit i && decide (i < W))) := by
  refine ⟨?_, ?_, ?_, ?_, ?_⟩
  · simp only [try_from, repr_from_w]
    by_cases hb : bits < 2 ^ d.width
    · simp only [hb, if_true, Option.some_bind]
      by_cases hc : bits &&& not_w d (all d) = 0
      · simp only [hc, if_true]
        constructor
        · intro h
          exact Option.noConfusion h
        · rintro ⟨i, hbi, hai⟩
          exfalso
          have hiw : i < d.width := testBit_true_lt hbi hb
          have h := congrArg (Nat.testBit · i) hc
          simp only [Nat.testBit_and, Nat.zero_testBit] at h
          rw [testBit_not_w d (all d) hWF i] at h
          simp [hbi, hiw, all, all_bits, hai] at h
      · simp only [hc, if_false]
        constructor
        · intro _
          by_contra hno
          push_neg at hno
          apply hc
          apply Nat.eq_of_testBit_eq
          intro i
          simp only [Nat.testBit_and, Nat.zero_testBit]
          rw [testBit_not_w d (all d) hWF i]
          cases hbi : bits.testBit i
          · simp
          · have hall : d.allBits.testBit i = true := by
              cases h2 : d.allBits.testBit i
              · exact absurd h2 (by simpa [hbi] using hno i)
              · rfl
            simp [all, all_bits, hall]
        · intro _
          trivial
    · simp only [hb, if_false, Option.none_bind]
      constructor
      · intro _
        have hge : bits ≥ 2 ^ d.width := by omega
        obtain ⟨i, hi, hbit⟩ := Nat.ge_two_pow_implies_high_bit_true hge
        refine ⟨i, hbit, ?_⟩
        exact Nat.testBit_lt_two_pow
          (Nat.lt_of_lt_of_le hWF (Nat.pow_le_pow_right (by omega) hi))
      · intro _
        trivial
  · intro u h
    simp only [try_from, repr_from_w] at h
    by_cases hb : bits < 2 ^ d.width
    · simp only [hb, if_true, Option.some_bind] at h
      by_cases hc : bits &&& not_w d (all d) = 0
      · simp only [hc, if_true, Option.some.injEq] at h
        exact h.symm
      · simp [hc] at h
    · simp [hb] at h
  · cases h : try_from d bits with
    | some v => simp [from_w, h, expect]
    | none => simp [from_w, h, expect]
  · intro u h
    simp [from_w, h, expect]
  · intro i
    simp only [from_truncated, to_truncated, all, all_bits, Nat.testBit_mod_two_pow,
      Nat.testBit_and]
    cases hall : d.allBits.testBit i
    · simp [hall]
    · have hiw : i < d.width := member_lt_width d hWF hall
      simp [hall, hiw, Bool.and_comm, Bool.and_assoc, Bool.and_left_comm]

/-- Witness for C4: importing `255` into the 7-member domain fails because
bit 7 is outside `ALL_BITS`. -/
theorem C4_import_witness :
    d0.WF ∧ (255 : Nat) < 2 ^ 8 ∧ try_from d0 255 = none :=
  ⟨by decide, by decide,
    (C4_import d0 (by decide) 8 255 (by decide)).1.mpr ⟨7, by decide, by decide⟩⟩

/-! Iterator lemmas. -/

theorem iter_eq (d : Domain) (u : Nat) : iter d u = iter_fuel d (bit_width d) u 0 := rfl

theorem iter_fuel_mem_lb (d : Domain) :
    ∀ fuel u pos x, x ∈ iter_fuel d fuel u pos → pos ≤ x := by
  intro fuel
  induction fuel with
  | zero =>
    intro u pos x h
    exact absurd h (List.not_mem_nil x)
  | succ fuel ih =>
    intro u pos x h
    simp only [iter_fuel] at h
    by_cases hp : pos < bit_width d
    · rw [if_pos hp] at h
      by_cases hb : has_bit u pos = true
      · rw [if_pos hb] at h
        rcases List.mem_cons.mp h with h1 | h2
        · omega
        · have := ih u (pos + 1) x h2
          omega
      · rw [if_neg hb] at h
        have := ih u (pos + 1) x h
        omega
    · rw [if_neg hp] at h
      exact absurd h (List.not_mem_nil x)

theorem iter_fuel_mem (d : Domain) :
    ∀ fuel u pos, bit_width d ≤ pos + fuel →
      ∀ x, (x ∈ iter_fuel d fuel u pos ↔ (pos ≤ x ∧ x < bit_width d ∧ u.testBit x = true)) := by
  intro fuel
  induction fuel with
  | zero =>
    intro u pos hle x
    constructor
    · intro h
      exact absurd h (List.not_mem_nil x)
    · rintro ⟨h1, h2, _⟩
      omega
  | succ fuel ih =>
    intro u pos hle x
    simp only [iter_fuel]
    by_cases hp : pos < bit_width d
    · rw [if_pos hp]
      have hih := ih u (pos + 1) (by omega)
      by_cases hb : has_bit u pos = true
      · rw [if_pos hb, List.mem_cons, hih x]
        have hub : u.testBit pos = true := by
          rw [← has_bit_eq_testBit]
          exact hb
        constructor
        · rintro (h1 | ⟨h2a, h2b, h2c⟩)
          · subst h1
            exact ⟨Nat.le_refl _, hp, hub⟩
          · exact ⟨by omega, h2b, h2c⟩
        · rintro ⟨h1, h2, h3⟩
          by_cases hx : x = pos
          · exact Or.inl hx
          · exact Or.inr ⟨by omega, h2, h3⟩
      · rw [if_neg hb, hih x]
        have hbf : has_bit u pos = false := by
          cases h2 : has_bit u pos
          · rfl
          · exact absurd h2 hb
        have hub : u.testBit pos = false := by
          rw [← has_bit_eq_testBit]
          exact hbf
        constructor
        · rintro ⟨h1, h2, h3⟩
          exact ⟨by omega, h2, h3⟩
        · rintro ⟨h1, h2, h3⟩
          refine ⟨?_, h2, h3⟩
          by_cases hx : x = pos
          · subst hx
            rw [hub] at h3
            exact absurd h3 (by simp)
          · omega
    · rw [if_neg hp]
      constructor
      · intro h
        exact absurd h (List.not_mem_nil x)
      · rintro ⟨h1, h2, _⟩
        omega

theorem iter_fuel_pairwise (d : Domain) :
    ∀ fuel u pos, List.Pairwise (fun a b => a < b) (iter_fuel d fuel u pos) := by
  intro fuel
  induction fuel with
  | zero =>
    intro u pos
    exact List.Pairwise.nil
  | succ fuel ih =>
    intro u pos
    simp only [iter_fuel]
    by_cases hp : pos < bit_width d
    · rw [if_pos hp]
      by_cases hb : has_bit u pos = true
      · rw [if_pos hb]
        refine List.Pairwise.cons ?_ (ih u (pos + 1))
        intro x hx
        have := iter_fuel_mem_lb d fuel u (pos + 1) x hx
        omega
      · rw [if_neg hb]
        exact ih u (pos + 1)
    · rw [if_neg hp]
      exact List.Pairwise.nil

theorem iter_fuel_length (d : Domain) :
    ∀ fuel u pos, bit_width d ≤ pos + fuel → u < 2 ^ bit_width d →
      (iter_fuel d fuel u pos).length = count_ones (u >>> pos) := by
  intro fuel
  induction fuel with
  | zero =>
    intro u pos hle hu
    have h0 : u >>> pos = 0 := by
      rw [Nat.shiftRight_eq_div_pow]
      apply Nat.div_eq_of_lt
      exact Nat.lt_of_lt_of_le hu (Nat.pow_le_pow_right (by omega) (by omega))
    simp [iter_fuel, h0, count_ones_zero]
  | succ fuel ih =>
    intro u pos hle hu
    simp only [iter_fuel]
    by_cases hp : pos < bit_width d
    · rw [if_pos hp]
      have hrec := ih u (pos + 1) (by omega) hu
      have hstep : count_ones (u >>> pos) = (u >>> pos) % 2 + count_ones (u >>> (pos + 1)) := by
        rw [count_ones_step (u >>> pos), Nat.shiftRight_succ]
      by_cases hb : has_bit u pos = true
      · rw [if_pos hb]
        simp only [List.length_cons]
        rw [hrec, hstep]
        have htb : u.testBit pos = true := by
          rw [← has_bit_eq_testBit]
          exact hb
        have hm : u / 2 ^ pos % 2 = 1 := by
          have h2 := Nat.testBit_to_div_mod (x := u) (i := pos)
          rw [htb] at h2
          exact of_decide_eq_true h2.symm
        rw [Nat.shiftRight_eq_div_pow]
        omega
      · rw [if_neg hb]
        rw [hrec, hstep]
        have hbf : has_bit u pos = false := by
          cases h2 : has_bit u pos
          · rfl
          · exact absurd h2 hb
        have htb : u.testBit pos = false := by
          rw [← has_bit_eq_testBit]
          exact hbf
        have hm : u / 2 ^ pos % 2 = 0 := by
          have h2 := Nat.testBit_to_div_mod (x := u) (i := pos)
          rw [htb] at h2
          have := of_decide_eq_false h2.symm
          omega
        rw [Nat.shiftRight_eq_div_pow]
        omega
    · rw [if_neg hp]
      have h0 : u >>> pos = 0 := by
        rw [Nat.shiftRight_eq_div_pow]
        apply Nat.div_eq_of_lt
        exact Nat.lt_of_lt_of_le hu (Nat.pow_le_pow_right (by omega) (by omega))
      simp [h0, count_ones_zero]

theorem partial_bits_lt (d : Domain) (pos : Nat) : partial_bits d pos < 2 ^ d.width :=
  Nat.mod_lt _ (Nat.two_pow_pos _)

theorem partial_bits_eq_lt (d : Domain) {pos : Nat} (h : pos < d.width) :
    partial_bits d pos = 2 ^ pos - 1 := by
  simp only [partial_bits, if_pos h, Nat.one_shiftLeft]
  have h1 : (1 : Nat) ≤ 2 ^ pos := Nat.one_le_two_pow
  have h2 : (1 : Nat) ≤ 2 ^ d.width := Nat.one_le_two_pow
  have h3 : 2 ^ pos + (2 ^ d.width - 1) = 2 ^ d.width + (2 ^ pos - 1) := by omega
  rw [h3, Nat.add_mod_left]
  apply Nat.mod_eq_of_lt
  have h4 : 2 ^ pos ≤ 2 ^ d.width := Nat.pow_le_pow_right (by omega) (by omega)
  omega

theorem partial_bits_eq_ge (d : Domain) {pos : Nat} (h : d.width ≤ pos) :
    partial_bits d pos = 2 ^ d.width - 1 := by
  simp only [partial_bits, if_neg (by omega : ¬pos < d.width), Nat.zero_add]
  apply Nat.mod_eq_of_lt
  have h2 : (1 : Nat) ≤ 2 ^ d.width := Nat.one_le_two_pow
  omega

theorem testBit_partial_bits (d : Domain) {pos : Nat} (hpos : pos ≤ d.width) (i : Nat) :
    (partial_bits d pos).testBit i = decide (i < pos) := by
  by_cases h : pos < d.width
  · rw [partial_bits_eq_lt d h, Nat.testBit_two_pow_sub_one]
  · have hp : pos = d.width := by omega
    rw [partial_bits_eq_ge d (by omega), Nat.testBit_two_pow_sub_one, hp]

theorem size_hint_eq (d : Domain) (u : Nat) (hu : u < 2 ^ d.width)
    (pos : Nat) (hpos : pos ≤ d.width) :
    size_hint d u pos = count_ones (u >>> pos) := by
  have hmask : u &&& not_w d (partial_bits d pos) = (u >>> pos) <<< pos := by
    apply Nat.eq_of_testBit_eq
    intro i
    simp only [Nat.testBit_and, Nat.testBit_shiftLeft, Nat.testBit_shiftRight]
    rw [testBit_not_w d (partial_bits d pos) (partial_bits_lt d pos) i,
      testBit_partial_bits d hpos i]
    by_cases hip : pos ≤ i
    · have he : pos + (i - pos) = i := by omega
      rw [he]
      cases hui : u.testBit i
      · simp [hip, hui]
      · have hiw : i < d.width := testBit_true_lt hui hu
        have hnlt : ¬i < pos := by omega
        simp [ge_iff_le, hip, hiw, hnlt, hui]
    · have hlt : i < pos := by omega
      simp [ge_iff_le, hip, hlt]
  unfold size_hint
  rw [hmask, count_ones_shiftLeft]

/-- C5: for any valid set, the iterator yields exactly the contained members,
all inside the domain, in strictly increasing bit-position order, with total
length `len`; and at every scan position up to the storage width, `size_hint`
reports exactly the number of set bits at positions at least that position. -/
theorem C5_iterator (d : Domain) (hWF : d.WF) (u : Nat) (hu : Valid d u) :
    (∀ x, x ∈ iter d u ↔ contains u x = true) ∧
    (∀ x, x ∈ iter d u → Member d x) ∧
    List.Pairwise (fun a b => a < b) (iter d u) ∧
    (iter d u).length = len u ∧
    (∀ pos, pos ≤ d.width → size_hint d u pos = count_ones (u >>> pos)) := by
  have hub : u < 2 ^ bit_width d := valid_lt_two_pow_bit_width d hWF hu
  have hmem := iter_fuel_mem d (bit_width d) u 0 (by omega)
  refine ⟨?_, ?_, ?_, ?_, ?_⟩
  · intro x
    rw [iter_eq, hmem x]
    simp only [contains, has_bit_eq_testBit]
    constructor
    · rintro ⟨_, _, h3⟩
      exact h3
    · intro h
      exact ⟨Nat.zero_le x, testBit_true_lt h hub, h⟩
  · intro x hx
    rw [iter_eq] at hx
    have h3 := ((hmem x).mp hx).2.2
    exact (valid_iff d hWF u).mp hu x h3
  · rw [iter_eq]
    exact iter_fuel_pairwise d (bit_width d) u 0
  · rw [iter_eq]
    rw [iter_fuel_length d (bit_width d) u 0 (by omega) hub]
    simp [len]
  · intro pos hpos
    exact size_hint_eq d u hu.1 pos hpos

/-- Witness for C5 on the set `{0, 3, 5}` of the concrete domain `d0`. -/
theorem C5_iterator_witness :
    d0.WF ∧ Valid d0 41 ∧ 3 ≤ d0.width ∧
    (iter d0 41).length = len 41 ∧ size_hint d0 41 3 = count_ones (41 >>> 3) :=
  ⟨by decide, by decide, by decide,
    (C5_iterator d0 (by decide) 41 (by decide)).2.2.2.1,
    (C5_iterator d0 (by decide) 41 (by decide)).2.2.2.2 3 (by decide)⟩

/-- Sparse 4-member domain at ordinals 10, 20, 30 and 127 over 128-bit
storage, as in the spec's sparse-domain scenario. -/
def sparseD : Domain := ⟨128, (1 <<< 10) ||| (1 <<< 20) ||| (1 <<< 30) ||| (1 <<< 127)⟩

set_option maxRecDepth 40000

/-- C8: on the sparse domain, `bit_width` is 128 and `variant_count` is 4; on
the set holding only the ordinal-10 member, the checked 8-bit export returns
none, the panicking 8-bit export fails, and the truncating 8-bit export drops
bit 10 and returns 0. -/
theorem C8_sparse :
    bit_width sparseD = 128 ∧ variant_count sparseD = 4 ∧
    try_to 8 (only 10) = none ∧ (∃ e, to_w 8 (only 10) = Except.error e) ∧
    to_truncated 8 (only 10) = 0 := by
  refine ⟨by decide, by decide, by decide, ⟨_, rfl⟩, by decide⟩

/-- C9: the `enum_set!` constant literal equals the union of the singleton
sets of the listed members, equals inserting them one by one into the empty
set, and the empty literal equals `empty`. -/
theorem C9_enum_set_literal (vs : List Nat) :
    enum_set vs = union_of_onlys vs ∧
    enum_set vs = insert_each vs ∧
    enum_set [] = empty :=
  ⟨rfl, rfl, rfl⟩

/-- C10: the `PartialEq` comparison between a set and a member holds exactly
when the set is that member's singleton; in particular it is false whenever the
set contains the member together with any other member, so it is not a
membership test. -/
theorem C10_eq_member (d : Domain) (v : Nat) (hv : Member d v) (u : Nat) :
    (eq_enum u v = true ↔ u = only v) ∧
    (∀ w2, Member d w2 → w2 ≠ v → contains u v = true → contains u w2 = true →
      eq_enum u v = false) := by
  constructor
  · simp [eq_enum, only]
  · intro w2 hw2 hne hcv hcw
    by_contra hne2
    have he : eq_enum u v = true := by
      cases h2 : eq_enum u v
      · exact absurd h2 hne2
      · rfl
    have hu : u = mask v := by
      simpa [eq_enum] using he
    subst hu
    rw [contains, has_bit_eq_testBit, mask_eq_two_pow, Nat.testBit_two_pow] at hcw
    have hvw : v = w2 := of_decide_eq_true hcw
    exact hne hvw.symm

/-- Witness for C10: the set `{0, 1}` contains member 1 but does not equal it. -/
theorem C10_eq_member_witness :
    Member d0 1 ∧ Member d0 0 ∧ contains 3 1 = true ∧ eq_enum 3 1 = false :=
  ⟨by decide, by decide, by decide,
    (C10_eq_member d0 1 (by decide) 3).2 0 (by decide) (by decide) (by decide) (by decide)⟩

end EnumSetSpec
